import Mathlib

/-!
Verification of the rs-tsptw beam-search engine.

This file gives a shallow embedding of the engine of the repository
(`src/beamsearch/parent_tree.rs`, `src/beamsearch/beamsearch_collection.rs`,
`src/beamsearch/beamsearch_solver.rs`) and of the TSPTW bucket-key hash
(`src/tsp/tsp_utility.rs`), and proves or refutes the specified properties.

Modelling conventions:
* `f64` fitness values are compared by the engine exclusively through
  `f64::total_cmp`, a total linear order; the embedding models fitness values
  as `Int`, an executable linear order, and passes the `fitness` projection of
  the `BeamsearchNode` trait as an explicit function argument.
* `u32` arithmetic is modelled on `Nat` with explicit `% 2^32` where the Rust
  code wraps (`wrapping_mul`, `as u32`).
* Rust iterators are modelled by `List`; `rayon` parallel maps are order
  preserving (`collect` keeps the input order), so they are modelled by
  `List.map`.
* `HashMap<u32, Vec<_>>` grouping (iteration order unspecified in Rust) is
  modelled as an association list in order of first key appearance; each
  group keeps insertion order exactly as `entry().or_default().push` does.
* The unbounded `loop` of `BeamsearchSolver::solve` is modelled with an
  explicit fuel parameter; `none` means the fuel was exhausted.
-/

namespace RsTsptw

/-! ### `parent_tree.rs`: `ParentTreeNode<T>`

`InnerParentTreeNode { parent: Option<ParentTreeNode<T>>, data: T }` behind an
`Arc`.  A node is a root (`parent == None`) or a child holding a shared handle
to its parent; sharing is semantically transparent, so the embedding is the
plain ancestry tree. -/

inductive ParentTreeNode (T : Type) where
  | root (data : T)
  | child (data : T) (parent : ParentTreeNode T)
deriving DecidableEq

namespace ParentTreeNode

variable {T : Type}

/-- `ParentTreeNode::new_root`. -/
def new_root (data : T) : ParentTreeNode T := .root data

/-- `ParentTreeNode::new_child` (the new node's parent is a shared handle to
`self`). -/
def new_child (self : ParentTreeNode T) (data : T) : ParentTreeNode T :=
  .child data self

/-- `ParentTreeNode::data`. -/
def data : ParentTreeNode T → T
  | .root d => d
  | .child d _ => d

/-- `ParentTreeNode::parent` (`self.inner.parent.as_ref()`). -/
def parent : ParentTreeNode T → Option (ParentTreeNode T)
  | .root _ => none
  | .child _ p => some p

/-- `ParentTreeNode::is_root` (`self.inner.parent.is_none()`). -/
def is_root (self : ParentTreeNode T) : Bool := self.parent.isNone

/-- `ParentTreeNode::ancestors`:
`std::iter::successors(Some(self), |node| node.parent())`, i.e. `self`, then
`self`'s parent, and so on up to and including the root.  The Rust iterator is
lazy; it is finite, so it is modelled as the list of its elements. -/
def ancestors : ParentTreeNode T → List (ParentTreeNode T)
  | .root d => [.root d]
  | .child d p => .child d p :: ancestors p

end ParentTreeNode

/-! ### `tsp_utility.rs` -/

/-- The `while i * i <= n` trial-division loop of `is_prime`, with `i`
starting at 5 and increasing by 6 each iteration.  The extra `fuel` argument
makes the recursion structural; `is_prime` passes `n + 1`, which is more than
the number of iterations (each iteration increases `i`, and the loop stops as
soon as `i * i > n`). -/
def is_prime_loop (n : Nat) : Nat → Nat → Bool
  | 0, _ => true
  | fuel + 1, i =>
    if i * i ≤ n then
      (if n % i = 0 || n % (i + 2) = 0 then false else is_prime_loop n fuel (i + 6))
    else true

/-- `is_prime` from `tsp_utility.rs` (every prime > 3 is `6k ± 1`).  The Rust
`u64` casts only avoid `u32` overflow and are invisible on `Nat`. -/
def is_prime (n : Nat) : Bool :=
  if n ≤ 1 then false
  else if n ≤ 3 then true
  else if n % 2 = 0 || n % 3 = 0 then false
  else is_prime_loop n (n + 1) 5

/-- The `while !is_prime(candidate) { candidate -= 2 }` loop of
`calc_next_prime_not_above`; the candidate strictly decreases, so the
candidate itself bounds the number of iterations and serves as fuel. -/
def next_prime_loop : Nat → Nat → Nat
  | 0, candidate => candidate
  | fuel + 1, candidate =>
    if is_prime candidate then candidate else next_prime_loop fuel (candidate - 2)

/-- `calc_next_prime_not_above` from `tsp_utility.rs` (precondition `n >= 3`
is asserted in Rust). -/
def calc_next_prime_not_above (n : Nat) : Nat :=
  let candidate := if n % 2 = 0 then n - 1 else n
  next_prime_loop candidate candidate

/-- `PRIME` of `calc_commutative_hash`: `calc_next_prime_not_above(u32::MAX / 1000)`. -/
def PRIME : Nat := calc_next_prime_not_above (4294967295 / 1000)

/-- `calc_commutative_hash` from `tsp_utility.rs`.
`seed.wrapping_mul((node + 1) as u32) % PRIME` on `u32`:
the `usize → u32` cast truncates mod `2^32` and `wrapping_mul` multiplies
mod `2^32`. -/
def calc_commutative_hash (seed node : Nat) : Nat :=
  let seed := if seed = 0 then seed + 1 else seed
  seed * ((node + 1) % 4294967296) % 4294967296 % PRIME

/-! ### `beamsearch_collection.rs`: `BeamsearchCollection<T>`

The `BeamsearchNode` trait (`fitness`, `level`) is modelled by passing the
`fitness` projection explicitly; `level` is never read by the engine. -/

structure BeamsearchCollection (T : Type) where
  nodes : List (ParentTreeNode T)
  sorted : Bool
deriving DecidableEq

namespace BeamsearchCollection

variable {T : Type}

/-- `Default for BeamsearchCollection` (`nodes: vec![], sorted: true`). -/
def defaultColl : BeamsearchCollection T := { nodes := [], sorted := true }

/-- `BeamsearchCollection::len`. -/
def len (self : BeamsearchCollection T) : Nat := self.nodes.length

/-- `BeamsearchCollection::add` (`push`, then `sorted = false`). -/
def add (self : BeamsearchCollection T) (node : ParentTreeNode T) :
    BeamsearchCollection T :=
  { nodes := self.nodes ++ [node], sorted := false }

/-- The comparison `a.data().fitness().total_cmp(&b.data().fitness())` used
throughout the collection; `total_cmp` is a total order on `f64`, modelled by
the linear order on `Int`. -/
abbrev fit_le (fitness : T → Int) (a b : ParentTreeNode T) : Prop :=
  fitness a.data ≤ fitness b.data

instance (fitness : T → Int) : IsTotal (ParentTreeNode T) (fit_le fitness) :=
  ⟨fun a b => Int.le_total (fitness a.data) (fitness b.data)⟩

instance (fitness : T → Int) : IsTrans (ParentTreeNode T) (fit_le fitness) :=
  ⟨fun _ _ _ => Int.le_trans⟩

instance (fitness : T → Int) : IsRefl (ParentTreeNode T) (fit_le fitness) :=
  ⟨fun _ => Int.le_refl _⟩

/-- `BeamsearchCollection::inner_sort`: `sort_by` with `total_cmp`, i.e. a
stable ascending sort.  A stable sort is uniquely determined by the
comparator, so the executable `List.insertionSort` (which is stable) is an
exact model of Rust's stable `sort_by`. -/
def inner_sort (fitness : T → Int) (to_sort : List (ParentTreeNode T)) :
    List (ParentTreeNode T) :=
  to_sort.insertionSort (fit_le fitness)

/-- `BeamsearchCollection::sort`: no-op when the `sorted` flag is set; else
reorder ascending and set the flag. -/
def sort (fitness : T → Int) (self : BeamsearchCollection T) :
    BeamsearchCollection T :=
  if self.sorted then self
  else { nodes := inner_sort fitness self.nodes, sorted := true }

/-- `BeamsearchCollection::keep_best`: no-op returning 0 when
`target_size >= len()`; otherwise sort, truncate to `target_size`, return the
number discarded. -/
def keep_best (fitness : T → Int) (self : BeamsearchCollection T)
    (target_size : Nat) : BeamsearchCollection T × Nat :=
  if self.nodes.length ≤ target_size then (self, 0)
  else
    let s := sort fitness self
    ({ s with nodes := s.nodes.take target_size },
      self.nodes.length - target_size)

/-- `BeamsearchCollection::get_best`: first element when `sorted`, else
`iter().min_by(total_cmp)`.  Rust's `min_by` returns the FIRST of equally
minimal elements: it folds `cmp::min_by(acc, x, compare)`, which keeps its
first argument on `Less` or `Equal` and takes the second only on
`Greater`. -/
def get_best (fitness : T → Int) (self : BeamsearchCollection T) :
    Option (ParentTreeNode T) :=
  if self.sorted then self.nodes.head?
  else
    self.nodes.foldl
      (fun acc x =>
        match acc with
        | none => some x
        | some m => if fitness m.data ≤ fitness x.data then some m else some x)
      none

/-- Insertion into the modelled `HashMap<u32, Vec<Node<T>>>`:
`entry(hash).or_default().push(node)`.  Groups are kept as an association
list in order of first key appearance (Rust's iteration order is
unspecified); each group keeps insertion order. -/
def insert_group (key : Nat) (node : ParentTreeNode T) :
    List (Nat × List (ParentTreeNode T)) → List (Nat × List (ParentTreeNode T))
  | [] => [(key, [node])]
  | (k, g) :: rest =>
    if k = key then (k, g ++ [node]) :: rest
    else (k, g) :: insert_group key node rest

/-- `BeamsearchCollection::create_similarity_groups_from`. -/
def create_similarity_groups_from (similarity_hash : ParentTreeNode T → Nat)
    (nodes : List (ParentTreeNode T)) : List (Nat × List (ParentTreeNode T)) :=
  nodes.foldl (fun groups node => insert_group (similarity_hash node) node groups) []

/-- `Vec::swap_remove(i)`: replace element `i` by the last element and pop
the last (no-op on the empty list; `i` is always in bounds at the call
sites). -/
def swap_remove {α : Type} (l : List α) (i : Nat) : List α :=
  match l.getLast? with
  | none => l
  | some last => l.dropLast.set i last

/-- `group[outer_i]` / `group[inner_i]` similarity test, out-of-bounds safe
(indices are always in bounds at the call sites). -/
def similar_at (is_similar : ParentTreeNode T → ParentTreeNode T → Bool)
    (g : List (ParentTreeNode T)) (outer inner : Nat) : Bool :=
  match g[outer]?, g[inner]? with
  | some o, some i => is_similar o i
  | _, _ => false

/-- The inner `for inner_i in (0..outer_i).rev()` loop of
`remove_similars_for`: it skips cleared mask entries and, finding a similar
earlier node, clears `keep_mask[outer_i]` (and keeps scanning), so its net
effect on `keep_mask[outer_i]` is this `any`. -/
def inner_loop (is_similar : ParentTreeNode T → ParentTreeNode T → Bool)
    (g : List (ParentTreeNode T)) (keep_mask : List Bool) (outer : Nat) : Bool :=
  (List.range outer).reverse.any
    (fun inner => keep_mask.getD inner true && similar_at is_similar g outer inner)

/-- The outer `for outer_i in (0..group.len()).rev()` loop of
`remove_similars_for`, processing index `k - 1` and recursing downwards. -/
def outer_loop (is_similar : ParentTreeNode T → ParentTreeNode T → Bool)
    (g : List (ParentTreeNode T)) : Nat → List Bool → List Bool
  | 0, keep_mask => keep_mask
  | k + 1, keep_mask =>
    outer_loop is_similar g k
      (if keep_mask.getD k true then
        (if inner_loop is_similar g keep_mask k then keep_mask.set k false
         else keep_mask)
      else keep_mask)

/-- The final `for i in (0..group.len()).rev() { if !keep_mask[i] {
group.swap_remove(i); } }` loop of `remove_similars_for` (the range bound is
the length before any removal). -/
def removal_loop {α : Type} (keep_mask : List Bool) : Nat → List α → List α
  | 0, g => g
  | i + 1, g =>
    removal_loop keep_mask i (if keep_mask.getD i true then g else swap_remove g i)

/-- `BeamsearchCollection::remove_similars_for`: sort the group ascending by
fitness, compute the keep mask by the backward double loop, then drop the
cleared indices with `swap_remove`. -/
def remove_similars_for (fitness : T → Int)
    (is_similar : ParentTreeNode T → ParentTreeNode T → Bool)
    (group : List (ParentTreeNode T)) : List (ParentTreeNode T) :=
  let g := inner_sort fitness group
  let keep_mask := outer_loop is_similar g g.length (List.replicate g.length true)
  removal_loop keep_mask g.length g

/-- `BeamsearchCollection::remove_similars`: bucket the pool by
`similarity_hash`, dedup each bucket with `remove_similars_for`, flatten, and
return the number of nodes removed.  The `sorted` flag is not touched. -/
def remove_similars (fitness : T → Int) (self : BeamsearchCollection T)
    (is_similar : ParentTreeNode T → ParentTreeNode T → Bool)
    (similarity_hash : ParentTreeNode T → Nat) :
    BeamsearchCollection T × Nat :=
  let size_before := self.nodes.length
  let groups := create_similarity_groups_from similarity_hash self.nodes
  let new_nodes :=
    (groups.map (fun kg => remove_similars_for fitness is_similar kg.2)).flatten
  ({ self with nodes := new_nodes }, size_before - new_nodes.length)

/-- The tracked-cache invariant of the pool: a set `sorted` flag means the
backing sequence is in non-decreasing fitness order. -/
abbrev Inv (fitness : T → Int) (self : BeamsearchCollection T) : Prop :=
  self.sorted = true → List.Sorted (fit_le fitness) self.nodes

end BeamsearchCollection

/-! ### `beamsearch_solver.rs`: `BeamsearchSolver` -/

/-- `Params { beam_width, prune_similars }`. -/
structure Params where
  beam_width : Nat
  prune_similars : Bool
deriving DecidableEq

/-- `SolverResult { best, nr_expansions }`. -/
structure SolverResult (T : Type) where
  best : Option (ParentTreeNode T)
  nr_expansions : Nat
deriving DecidableEq

/-- `is_never_similar`. -/
def is_never_similar {T : Type} (_a _b : ParentTreeNode T) : Bool := false

/-- The solver state.  NOTE: the `similarity_hash` field is required by
`BeamsearchCollection::remove_similars` (which takes both `is_similar` and a
`similarity_hash`) and is supplied by the caller `solve_tsp` in
`tsp_solver.rs`, which passes six arguments to `BeamsearchSolver::new`
including the bucket key `|n| n.data().visited_node_hash`.  The checked-in
`beamsearch_solver.rs`, however, declares `new` with five parameters (no
bucket key) and calls `self.coll.remove_similars(&self.is_similar)` with a
single argument; that file does not type-check against its own collection and
caller.  This embedding models the consistent interface the rest of the
repository (and the spec) is written against; see claim C1. -/
structure BeamsearchSolver (T : Type) where
  coll : BeamsearchCollection T
  expander : ParentTreeNode T → List T
  is_similar : ParentTreeNode T → ParentTreeNode T → Bool
  similarity_hash : ParentTreeNode T → Nat
  is_valid_solution : ParentTreeNode T → Bool
  params : Params

namespace BeamsearchSolver

variable {T : Type}

/-- `BeamsearchSolver::new`: wrap each start payload as a root node, `add` it
to a default collection, and store the callbacks and configuration. -/
def new (start_nodes : List T) (expander : ParentTreeNode T → List T)
    (is_similar : ParentTreeNode T → ParentTreeNode T → Bool)
    (similarity_hash : ParentTreeNode T → Nat)
    (is_valid_solution : ParentTreeNode T → Bool) (params : Params) :
    BeamsearchSolver T :=
  { coll := start_nodes.foldl
      (fun c node => c.add (ParentTreeNode.new_root node))
      BeamsearchCollection.defaultColl
    expander, is_similar, similarity_hash, is_valid_solution, params }

/-- `BeamsearchSolver::expand`: take the collection (leaving the default),
map every node to its wrapped children (rayon's indexed `par_iter().collect()`
preserves order), `add` all children in order, and restore the old collection
when nothing was expanded.  Returns the updated solver and `nr_expanded`. -/
def expand (self : BeamsearchSolver T) : BeamsearchSolver T × Nat :=
  let old_coll := self.coll
  let results := old_coll.nodes.map
    (fun node => (self.expander node).map (fun child => node.new_child child))
  let nr_expanded := (results.map List.length).sum
  let new_coll := results.flatten.foldl
    (fun c child => c.add child) BeamsearchCollection.defaultColl
  if nr_expanded = 0 then ({ self with coll := old_coll }, 0)
  else ({ self with coll := new_coll }, nr_expanded)

/-- The `prune_similars` step of `solve` (lines 79–86): run
`remove_similars` over the current collection when enabled, else remove 0. -/
def dedup_step (fitness : T → Int) (self : BeamsearchSolver T) :
    BeamsearchSolver T × Nat :=
  if self.params.prune_similars then
    let cr := BeamsearchCollection.remove_similars fitness self.coll
      self.is_similar self.similarity_hash
    ({ self with coll := cr.1 }, cr.2)
  else (self, 0)

/-- `BeamsearchSolver::create_result`: the final frontier's `get_best`,
filtered through `is_valid_solution`; `None` is the normal "no solution
found" value (the Rust code calls `get_best` twice; it is pure). -/
def create_result (fitness : T → Int) (self : BeamsearchSolver T)
    (all_expansions : Nat) : SolverResult T :=
  match BeamsearchCollection.get_best fitness self.coll with
  | some best =>
    if self.is_valid_solution best then
      { best := BeamsearchCollection.get_best fitness self.coll,
        nr_expansions := all_expansions }
    else { best := none, nr_expansions := all_expansions }
  | none => { best := none, nr_expansions := all_expansions }

/-- The `loop` of `BeamsearchSolver::solve`: expand, dedup (when enabled),
return `create_result` when nothing was expanded, else accumulate the
expansion count, truncate to the beam width and iterate.  `fuel` bounds the
number of generations; `none` means it was exhausted.  The
`all_similars_removed` counter is print-telemetry only and is not modelled. -/
def solve_loop (fitness : T → Int) :
    Nat → BeamsearchSolver T → Nat → Option (SolverResult T)
  | 0, _, _ => none
  | fuel + 1, self, all_expansions =>
    let en := expand self
    let s2 := (dedup_step fitness en.1).1
    if en.2 = 0 then some (create_result fitness s2 all_expansions)
    else
      solve_loop fitness fuel
        { s2 with
          coll := (BeamsearchCollection.keep_best fitness s2.coll
            s2.params.beam_width).1 }
        (all_expansions + en.2)

/-- `BeamsearchSolver::solve`, from a fuel bound on the generation count. -/
def solve (fitness : T → Int) (self : BeamsearchSolver T) (fuel : Nat) :
    Option (SolverResult T) :=
  solve_loop fitness fuel self 0

end BeamsearchSolver

/-! ### Proof-side helper functions (used only to characterise
`remove_similars_for` in the proofs, not part of the embedding) -/

/-- Elements of `g` sitting at `true` positions of `mask`, in order. -/
def mask_filter {α : Type} : List α → List Bool → List α
  | [], _ => []
  | _ :: _, [] => []
  | x :: xs, b :: bs => if b then x :: mask_filter xs bs else mask_filter xs bs

/-- Forward scan that keeps an element iff no earlier element of the list
(kept or discarded) is similar to it — the net effect of the backward
mask loops of `remove_similars_for`. -/
def scan_keep {T : Type} (is_similar : ParentTreeNode T → ParentTreeNode T → Bool) :
    List (ParentTreeNode T) → List (ParentTreeNode T) → List (ParentTreeNode T)
  | _, [] => []
  | earlier, x :: rest =>
    if earlier.any (fun e => is_similar x e) then
      scan_keep is_similar (earlier ++ [x]) rest
    else x :: scan_keep is_similar (earlier ++ [x]) rest

/-! ### Concrete inputs used by witnesses and counterexamples -/

/-- A small unsorted pool (payload `Int`, fitness `id`). -/
def wpool4 : BeamsearchCollection Int :=
  { nodes := [.root 3, .root 1, .root 2], sorted := false }

/-- A sorted-flag-true pool whose nodes are in fitness order 1,2,3,4. -/
def c2pool : BeamsearchCollection Int :=
  { nodes := [.root 1, .root 2, .root 3, .root 4], sorted := true }

/-- A bucket key splitting `c2pool` into buckets {1,4} and {2,3}. -/
def c2hash : ParentTreeNode Int → Nat :=
  fun n => if n.data == 1 || n.data == 4 then 0 else 1

/-- Everything is similar to everything. -/
def always_similar : ParentTreeNode Int → ParentTreeNode Int → Bool :=
  fun _ _ => true

/-- Constant bucket key. -/
def zero_hash : ParentTreeNode Int → Nat := fun _ => 0

/-- A two-node one-bucket pool (payload `Int`, fitness `id`). -/
def wpool3 : BeamsearchCollection Int :=
  { nodes := [.root 2, .root 1], sorted := false }

/-- Constant-zero fitness (all nodes tie). -/
def const_fit : Int → Int := fun _ => 0

/-- C5 counterexample solver: two always-similar roots of fitness 10 and 20
in a single bucket, an expander with no children, and pruning enabled. -/
def c5solver : BeamsearchSolver Int :=
  BeamsearchSolver.new [10, 20] (fun _ => []) always_similar zero_hash
    (fun _ => true) { beam_width := 100, prune_similars := true }

/-- A trivial no-children solver with pruning disabled. -/
def w5solver : BeamsearchSolver Int :=
  BeamsearchSolver.new [1, 2] (fun _ => []) is_never_similar zero_hash
    (fun _ => true) { beam_width := 4, prune_similars := false }

/-- A solver whose validator rejects everything. -/
def w6solver : BeamsearchSolver Int :=
  BeamsearchSolver.new [5] (fun _ => []) is_never_similar zero_hash
    (fun _ => false) { beam_width := 4, prune_similars := false }

/-- `bifurcate_expander::<10>` from the solver tests: two children with
fitness and level one above the parent, for levels below 10.  The payload is
`(fitness, level) : Int × Int`. -/
def bifurcate_expander : ParentTreeNode (Int × Int) → List (Int × Int) :=
  fun n =>
    if n.data.2 < 10 then
      [(n.data.1 + 1, n.data.2 + 1), (n.data.1 + 1, n.data.2 + 1)]
    else []

/-- The fitness projection of the `(fitness, level)` payload. -/
def fit_fst : Int × Int → Int := Prod.fst

/-- The `test_big_solve` scenario with `prune_similars: true` (as in the
regression test; `is_never_similar` makes deduplication a no-op). -/
def c8solver_prune : BeamsearchSolver (Int × Int) :=
  BeamsearchSolver.new [((0 : Int), (0 : Int))] bifurcate_expander
    is_never_similar (fun _ => 0) (fun _ => true)
    { beam_width := 4, prune_similars := true }

/-- The same scenario with `prune_similars: false` (deduplication disabled,
as in the spec's phrasing of the scenario). -/
def c8solver_noprune : BeamsearchSolver (Int × Int) :=
  BeamsearchSolver.new [((0 : Int), (0 : Int))] bifurcate_expander
    is_never_similar (fun _ => 0) (fun _ => true)
    { beam_width := 4, prune_similars := false }

end RsTsptw

namespace RsTsptw

/-! ### Theorems -/

set_option maxRecDepth 10000 in
theorem prime_value : PRIME = 4294967 := by decide

theorem PRIME_prime : Nat.Prime PRIME := by rw [prime_value]; norm_num

theorem ancestors_ne_nil {T : Type} (n : ParentTreeNode T) :
    n.ancestors ≠ [] := by
  cases n <;> simp [ParentTreeNode.ancestors]

/-- C9: `ancestors()` yields the node itself, then its parent, then its
parent's parent, and so on, ending at (and including) the root.  The sequence
is a `List`, hence finite; the embedding is pure, so each call trivially
yields a fresh sequence and mutates nothing. -/
theorem ancestors_self_then_parents_up_to_root {T : Type} (n : ParentTreeNode T) :
    n.ancestors.head? = some n ∧
    (∀ i : Nat, n.ancestors[i + 1]? = (n.ancestors[i]?).bind ParentTreeNode.parent) ∧
    (∃ r, n.ancestors.getLast? = some r ∧ r.is_root = true) := by
  induction n with
  | root d =>
    refine ⟨rfl, fun i => ?_, ⟨.root d, rfl, rfl⟩⟩
    match i with
    | 0 => rfl
    | j + 1 => simp [ParentTreeNode.ancestors]
  | child d p ih =>
    obtain ⟨ih1, ih2, r, ihr, ihroot⟩ := ih
    have hanc : (ParentTreeNode.child d p).ancestors
        = ParentTreeNode.child d p :: p.ancestors := rfl
    refine ⟨rfl, fun i => ?_, ⟨r, ?_, ihroot⟩⟩
    · rw [hanc]
      match i with
      | 0 =>
        rw [List.getElem?_cons_succ, List.getElem?_cons_zero]
        show p.ancestors[0]? = some p
        rw [← List.head?_eq_getElem?]
        exact ih1
      | j + 1 =>
        rw [List.getElem?_cons_succ, List.getElem?_cons_succ]
        exact ih2 j
    · rw [hanc, List.getLast?_cons, ihr]
      rfl

/-! #### C10: commutativity of `calc_commutative_hash` -/

theorem calc_commutative_hash_step (s n : Nat) (hs0 : s ≠ 0) (hsP : s < PRIME)
    (hn : n < 1000) : calc_commutative_hash s n = s * (n + 1) % PRIME := by
  have hP : PRIME = 4294967 := prime_value
  have h1 : (n + 1) % 4294967296 = n + 1 := Nat.mod_eq_of_lt (by omega)
  have h2 : s * (n + 1) < 4294967296 := by
    have := Nat.mul_le_mul (show s ≤ 4294966 by omega) (show n + 1 ≤ 1000 by omega)
    omega
  simp only [calc_commutative_hash, if_neg hs0]
  rw [h1, Nat.mod_eq_of_lt h2]

theorem calc_commutative_hash_step_bounds (s n : Nat) (hs0 : s ≠ 0)
    (hsP : s < PRIME) (hn : n < 1000) :
    calc_commutative_hash s n ≠ 0 ∧ calc_commutative_hash s n < PRIME := by
  rw [calc_commutative_hash_step s n hs0 hsP hn]
  have hPpos : 0 < PRIME := PRIME_prime.pos
  refine ⟨fun h0 => ?_, Nat.mod_lt _ hPpos⟩
  have hdvd : PRIME ∣ s * (n + 1) := Nat.dvd_of_mod_eq_zero h0
  rcases (Nat.Prime.dvd_mul PRIME_prime).mp hdvd with h | h
  · exact absurd (Nat.le_of_dvd (Nat.pos_of_ne_zero hs0) h) (by omega)
  · have : PRIME ≤ n + 1 := Nat.le_of_dvd (by omega) h
    have := prime_value
    omega

theorem foldl_calc_commutative_hash (l : List Nat) :
    ∀ s, s ≠ 0 → s < PRIME → (∀ x ∈ l, x < 1000) →
      List.foldl calc_commutative_hash s l = s * ((l.map (· + 1)).prod) % PRIME := by
  induction l with
  | nil =>
    intro s hs0 hsP _
    simp [Nat.mod_eq_of_lt hsP]
  | cons n t ih =>
    intro s hs0 hsP hb
    have hn : n < 1000 := hb n (List.mem_cons_self _ _)
    have hbt : ∀ x ∈ t, x < 1000 := fun x hx => hb x (List.mem_cons_of_mem _ hx)
    obtain ⟨hne, hlt⟩ := calc_commutative_hash_step_bounds s n hs0 hsP hn
    rw [List.foldl_cons, ih _ hne hlt hbt, calc_commutative_hash_step s n hs0 hsP hn,
      Nat.mod_mul_mod, List.map_cons, List.prod_cons, Nat.mul_assoc]

set_option maxRecDepth 40000 in
/-- C10, counterexample: the bucket key is NOT order-independent for every
finite set of city indices.  The same three cities {1385, 2524, 2957} hash to
1093638 or 1093934 depending on the visiting order, because
`wrapping_mul` overflows `u32` before the reduction `% PRIME` for products
this large, and `(a * b mod 2^32) mod PRIME` is not associative. -/
theorem calc_commutative_hash_not_order_independent :
    List.Perm [1385, 2524, 2957] [2524, 2957, 1385] ∧
    List.foldl calc_commutative_hash 1 [1385, 2524, 2957] = 1093638 ∧
    List.foldl calc_commutative_hash 1 [2524, 2957, 1385] = 1093934 := by
  refine ⟨by decide, by decide, by decide⟩

/-- C10, amended: the bucket key is order-independent for city indices below
1000 (the "1000 cities at most" regime documented in the code): then every
intermediate product stays below `2^32`, `wrapping_mul` never wraps, and the
fold is multiplication in the field `Z_PRIME`, which is commutative. -/
theorem calc_commutative_hash_order_independent_of_lt_1000
    (l l' : List Nat) (hperm : List.Perm l l') (hb : ∀ x ∈ l, x < 1000) :
    List.foldl calc_commutative_hash 1 l = List.foldl calc_commutative_hash 1 l' := by
  have hb' : ∀ x ∈ l', x < 1000 := fun x hx => hb x (hperm.mem_iff.mpr hx)
  have h1 : (1 : Nat) ≠ 0 := one_ne_zero
  have h2 : (1 : Nat) < PRIME := by rw [prime_value]; omega
  rw [foldl_calc_commutative_hash l 1 h1 h2 hb,
    foldl_calc_commutative_hash l' 1 h1 h2 hb',
    (hperm.map (· + 1)).prod_eq]

/-- Witness for the amended C10 theorem at a concrete permutation. -/
theorem calc_commutative_hash_order_independent_witness :
    List.foldl calc_commutative_hash 1 [0, 5, 7] =
      List.foldl calc_commutative_hash 1 [7, 0, 5] :=
  calc_commutative_hash_order_independent_of_lt_1000 [0, 5, 7] [7, 0, 5]
    (by decide) (by decide)

/-! #### Sorting helper lemmas -/

section SortLemmas

open BeamsearchCollection

variable {T : Type}

/-- `orderedInsert` keeps the relative order of any fixed fitness class:
filtering one fitness value out of an insertion prepends the inserted node
exactly when it has that fitness. -/
theorem filter_fit_orderedInsert (fitness : T → Int) (v : Int)
    (x : ParentTreeNode T) (s : List (ParentTreeNode T)) :
    (s.orderedInsert (fit_le fitness) x).filter (fun nd => fitness nd.data == v)
      = if fitness x.data = v
        then x :: s.filter (fun nd => fitness nd.data == v)
        else s.filter (fun nd => fitness nd.data == v) := by
  rw [List.orderedInsert_eq_take_drop, List.filter_append]
  by_cases hx : fitness x.data = v
  · rw [if_pos hx]
    have htake :
        (s.takeWhile (fun b => decide ¬ fit_le fitness x b)).filter
          (fun nd => fitness nd.data == v) = [] := by
      refine List.filter_eq_nil_iff.mpr (fun y hy => ?_)
      have := List.mem_takeWhile_imp hy
      simp only [decide_eq_true_eq, fit_le, not_le] at this
      simp only [beq_iff_eq]
      omega
    rw [htake, List.nil_append, List.filter_cons_of_pos (by simp [hx])]
    have hsplit := List.takeWhile_append_dropWhile
      (fun b => decide ¬ fit_le fitness x b) s
    conv_rhs => rw [← hsplit]
    rw [List.filter_append, htake, List.nil_append]
  · rw [if_neg hx, List.filter_cons_of_neg (by simp [hx])]
    have hsplit := List.takeWhile_append_dropWhile
      (fun b => decide ¬ fit_le fitness x b) s
    conv_rhs => rw [← hsplit]
    rw [List.filter_append]

/-- Stability of `inner_sort`: each fitness class keeps its original relative
order (this is stability of Rust's `sort_by`). -/
theorem filter_fit_inner_sort (fitness : T → Int) (v : Int) :
    ∀ l : List (ParentTreeNode T),
      (inner_sort fitness l).filter (fun nd => fitness nd.data == v)
        = l.filter (fun nd => fitness nd.data == v) := by
  intro l
  induction l with
  | nil => rfl
  | cons x xs ih =>
    show ((List.insertionSort _ xs).orderedInsert _ x).filter _ = _
    rw [filter_fit_orderedInsert]
    by_cases hx : fitness x.data = v
    · rw [if_pos hx, List.filter_cons_of_pos (by simp [hx])]
      exact congrArg _ ih
    · rw [if_neg hx, List.filter_cons_of_neg (by simp [hx])]
      exact ih

/-- The net effect of `BeamsearchCollection::sort` on an invariant-satisfying
pool: the flag is set, the nodes are sorted, and they are a
stability-preserving permutation of the input. -/
theorem sort_spec (fitness : T → Int) (c : BeamsearchCollection T)
    (h : Inv fitness c) :
    (sort fitness c).sorted = true ∧
    List.Sorted (fit_le fitness) (sort fitness c).nodes ∧
    (sort fitness c).nodes.Perm c.nodes ∧
    (∀ v : Int, (sort fitness c).nodes.filter (fun nd => fitness nd.data == v)
        = c.nodes.filter (fun nd => fitness nd.data == v)) ∧
    (sort fitness c).nodes.length = c.nodes.length := by
  unfold sort
  by_cases hs : c.sorted
  · rw [if_pos hs]
    exact ⟨hs, h hs, List.Perm.refl _, fun _ => rfl, rfl⟩
  · rw [if_neg hs]
    exact ⟨rfl, List.sorted_insertionSort _ _, List.perm_insertionSort _ _,
      fun v => filter_fit_inner_sort fitness v c.nodes,
      List.length_insertionSort _ _⟩

/-- The `min_by(total_cmp)` fold of `get_best` returns an element of the list
of minimal fitness (and `none` exactly on the empty list with empty
accumulator); ties keep the accumulator, i.e. the earliest minimum. -/
theorem get_best_fold_spec (fitness : T → Int) :
    ∀ (l : List (ParentTreeNode T)) (acc : Option (ParentTreeNode T)),
      (l.foldl
        (fun acc x =>
          match acc with
          | none => some x
          | some m => if fitness m.data ≤ fitness x.data then some m else some x)
        acc = none ↔ (acc = none ∧ l = [])) ∧
      (∀ b, l.foldl
        (fun acc x =>
          match acc with
          | none => some x
          | some m => if fitness m.data ≤ fitness x.data then some m else some x)
        acc = some b →
        (b ∈ l ∨ acc = some b) ∧ (∀ y ∈ l, fitness b.data ≤ fitness y.data) ∧
        (∀ m, acc = some m → fitness b.data ≤ fitness m.data)) := by
  intro l
  induction l with
  | nil =>
    intro acc
    refine ⟨by simp, fun b hb => ?_⟩
    simp only [List.foldl_nil] at hb
    exact ⟨Or.inr hb, by simp, fun m hm => by rw [hb] at hm; cases hm; exact le_refl _⟩
  | cons x t ih =>
    intro acc
    have step :
        (t.foldl
          (fun acc x =>
            match acc with
            | none => some x
            | some m => if fitness m.data ≤ fitness x.data then some m else some x)
          (match acc with
            | none => some x
            | some m => if fitness m.data ≤ fitness x.data then some m else some x))
          = (x :: t).foldl
            (fun acc x =>
              match acc with
              | none => some x
              | some m => if fitness m.data ≤ fitness x.data then some m else some x)
            acc := by rw [List.foldl_cons]
    constructor
    · rw [← step]
      cases acc with
      | none =>
        simp only [(ih (some x)).1]
        simp
      | some m =>
        by_cases hle : fitness m.data ≤ fitness x.data
        · simp only [if_pos hle, (ih (some m)).1]
          simp
        · simp only [if_neg hle, (ih (some x)).1]
          simp
    · intro b hb
      rw [← step] at hb
      cases acc with
      | none =>
        obtain ⟨hmem, hmin, hacc⟩ := (ih (some x)).2 b hb
        have hbx : fitness b.data ≤ fitness x.data := hacc x rfl
        refine ⟨?_, fun y hy => ?_, fun m hm => by cases hm⟩
        · rcases hmem with h | h
          · exact Or.inl (List.mem_cons_of_mem _ h)
          · cases h; exact Or.inl (List.mem_cons_self _ _)
        · rcases List.mem_cons.mp hy with rfl | hy
          · exact hbx
          · exact hmin y hy
      | some m0 =>
        have hred :
            (match some m0 with
              | none => some x
              | some m =>
                if fitness m.data ≤ fitness x.data then some m else some x)
            = if fitness m0.data ≤ fitness x.data then some m0 else some x := rfl
        rw [hred] at hb
        by_cases hle : fitness m0.data ≤ fitness x.data
        · rw [if_pos hle] at hb
          obtain ⟨hmem, hmin, hacc⟩ := (ih (some m0)).2 b hb
          have hbm : fitness b.data ≤ fitness m0.data := hacc m0 rfl
          refine ⟨?_, fun y hy => ?_, fun m hm => ?_⟩
          · rcases hmem with h | h
            · exact Or.inl (List.mem_cons_of_mem _ h)
            · exact Or.inr h
          · rcases List.mem_cons.mp hy with rfl | hy
            · exact le_trans hbm hle
            · exact hmin y hy
          · cases hm; exact hbm
        · rw [if_neg hle] at hb
          obtain ⟨hmem, hmin, hacc⟩ := (ih (some x)).2 b hb
          have hbx : fitness b.data ≤ fitness x.data := hacc x rfl
          refine ⟨?_, fun y hy => ?_, fun m hm => ?_⟩
          · rcases hmem with h | h
            · exact Or.inl (List.mem_cons_of_mem _ h)
            · cases h; exact Or.inl (List.mem_cons_self _ _)
          · rcases List.mem_cons.mp hy with rfl | hy
            · exact hbx
            · exact hmin y hy
          · cases hm
            exact le_of_lt (lt_of_le_of_lt hbx (not_le.mp hle))

end SortLemmas

/-! #### C4: `get_best` -/

section GetBest

open BeamsearchCollection

variable {T : Type}

/-- C4: on every pool satisfying the tracked-cache invariant, `get_best()`
returns `none` iff the pool is empty, and any returned node is in the pool
with fitness ≤ every node's fitness. -/
theorem get_best_returns_minimum (fitness : T → Int)
    (c : BeamsearchCollection T) (h : Inv fitness c) :
    (get_best fitness c = none ↔ c.nodes = []) ∧
    (∀ b, get_best fitness c = some b →
      b ∈ c.nodes ∧ ∀ y ∈ c.nodes, fitness b.data ≤ fitness y.data) := by
  unfold get_best
  by_cases hs : c.sorted
  · rw [if_pos hs]
    have hsorted := h hs
    constructor
    · exact List.head?_eq_none_iff
    · intro b hb
      obtain ⟨t, hn⟩ : ∃ t, c.nodes = b :: t := by
        cases hcn : c.nodes with
        | nil => rw [hcn] at hb; cases hb
        | cons a t =>
          rw [hcn] at hb
          refine ⟨t, ?_⟩
          injection hb with h
          rw [h]
      rw [hn] at hsorted ⊢
      have := List.pairwise_cons.mp hsorted
      refine ⟨List.mem_cons_self _ _, fun y hy => ?_⟩
      rcases List.mem_cons.mp hy with rfl | hy
      · exact le_refl _
      · exact this.1 y hy
  · rw [if_neg hs]
    have spec := get_best_fold_spec fitness c.nodes none
    constructor
    · rw [spec.1]
      simp
    · intro b hb
      obtain ⟨hmem, hmin, _⟩ := spec.2 b hb
      refine ⟨?_, hmin⟩
      rcases hmem with h' | h'
      · exact h'
      · cases h'

/-- Witness for C4 at a concrete unsorted pool. -/
theorem get_best_returns_minimum_witness :
    (BeamsearchCollection.get_best id wpool4 = none ↔ wpool4.nodes = []) ∧
    (∀ b, BeamsearchCollection.get_best id wpool4 = some b →
      b ∈ wpool4.nodes ∧ ∀ y ∈ wpool4.nodes, id b.data ≤ id y.data) :=
  get_best_returns_minimum id wpool4 (fun h => by simp [wpool4] at h)

end GetBest

/-! #### C7: `keep_best` -/

section KeepBest

open BeamsearchCollection

variable {T : Type}

/-- C7: `keep_best(target_size)` is a no-op returning 0 when
`target_size ≥ len()`; otherwise it returns the number of discarded nodes,
keeps exactly `target_size` nodes, every kept node's fitness is ≤ every
dropped node's fitness (so exactly the `target_size` smallest fitness values
survive, ambiguity only at ties), and within each fitness class the kept
nodes are an initial segment of the pre-truncation order (stable
truncation). -/
theorem keep_best_keeps_smallest (fitness : T → Int)
    (c : BeamsearchCollection T) (target_size : Nat) (h : Inv fitness c) :
    (c.nodes.length ≤ target_size → keep_best fitness c target_size = (c, 0)) ∧
    (target_size < c.nodes.length →
      (keep_best fitness c target_size).2 = c.nodes.length - target_size ∧
      (keep_best fitness c target_size).1.nodes.length = target_size ∧
      (∃ dropped,
        dropped.length = c.nodes.length - target_size ∧
        ((keep_best fitness c target_size).1.nodes ++ dropped).Perm c.nodes ∧
        ∀ x ∈ (keep_best fitness c target_size).1.nodes, ∀ y ∈ dropped,
          fitness x.data ≤ fitness y.data) ∧
      (∀ v : Int, ∃ rest,
        ((keep_best fitness c target_size).1.nodes.filter
          (fun nd => fitness nd.data == v)) ++ rest
          = c.nodes.filter (fun nd => fitness nd.data == v))) := by
  constructor
  · intro hle
    unfold keep_best
    rw [if_pos hle]
  · intro hlt
    obtain ⟨hflag, hsorted, hperm, hfilter, hlen⟩ := sort_spec fitness c h
    have hnle : ¬ c.nodes.length ≤ target_size := not_le.mpr hlt
    have hkb : keep_best fitness c target_size
        = ({ sort fitness c with
              nodes := (sort fitness c).nodes.take target_size },
           c.nodes.length - target_size) := by
      unfold keep_best
      rw [if_neg hnle]
    rw [hkb]
    have hlen_take : ((sort fitness c).nodes.take target_size).length
        = target_size := by
      rw [List.length_take, hlen]
      omega
    refine ⟨rfl, hlen_take, ⟨(sort fitness c).nodes.drop target_size, ?_, ?_, ?_⟩, ?_⟩
    · rw [List.length_drop, hlen]
    · rw [List.take_append_drop]
      exact hperm
    · intro x hx y hy
      exact hsorted.rel_of_mem_take_of_mem_drop hx hy
    · intro v
      refine ⟨((sort fitness c).nodes.drop target_size).filter
        (fun nd => fitness nd.data == v), ?_⟩
      rw [← List.filter_append, List.take_append_drop]
      exact hfilter v

/-- Witness for C7 at a concrete pool and beam width 2. -/
theorem keep_best_keeps_smallest_witness :
    ((wpool4.nodes.length ≤ 2 →
      BeamsearchCollection.keep_best id wpool4 2 = (wpool4, 0)) ∧
    (2 < wpool4.nodes.length →
      (BeamsearchCollection.keep_best id wpool4 2).2 = wpool4.nodes.length - 2 ∧
      (BeamsearchCollection.keep_best id wpool4 2).1.nodes.length = 2 ∧
      (∃ dropped,
        dropped.length = wpool4.nodes.length - 2 ∧
        ((BeamsearchCollection.keep_best id wpool4 2).1.nodes ++ dropped).Perm
          wpool4.nodes ∧
        ∀ x ∈ (BeamsearchCollection.keep_best id wpool4 2).1.nodes, ∀ y ∈ dropped,
          id x.data ≤ id y.data) ∧
      (∀ v : Int, ∃ rest,
        ((BeamsearchCollection.keep_best id wpool4 2).1.nodes.filter
          (fun nd => id nd.data == v)) ++ rest
          = wpool4.nodes.filter (fun nd => id nd.data == v)))) ∧
    2 < wpool4.nodes.length :=
  ⟨keep_best_keeps_smallest id wpool4 2 (fun h => by simp [wpool4] at h),
    by decide⟩

end KeepBest

/-! #### C2: the tracked-cache invariant -/

section InvariantC2

open BeamsearchCollection

variable {T : Type}

/-- C2, amended: `add` clears the flag (so the invariant holds trivially),
`sort` sets the flag only together with actually sorted nodes, `keep_best`
preserves the invariant, and `remove_similars` preserves it whenever the
flag is false on entry — which is the state at its only call site in the
solver.  (On a flag-true pool with several buckets it can break the
invariant: see the counterexample.) -/
theorem pool_tracked_cache_invariant (fitness : T → Int) :
    (∀ (c : BeamsearchCollection T) n,
      (c.add n).sorted = false ∧ Inv fitness (c.add n)) ∧
    (∀ c : BeamsearchCollection T, Inv fitness c →
      (sort fitness c).sorted = true ∧
      List.Sorted (fit_le fitness) (sort fitness c).nodes ∧
      Inv fitness (sort fitness c)) ∧
    (∀ (c : BeamsearchCollection T) t, Inv fitness c →
      Inv fitness (keep_best fitness c t).1) ∧
    (∀ (c : BeamsearchCollection T) is_similar similarity_hash,
      c.sorted = false →
      Inv fitness (remove_similars fitness c is_similar similarity_hash).1) := by
  refine ⟨fun c n => ⟨rfl, fun h => by cases h⟩, fun c h => ?_, fun c t h => ?_,
    fun c is_similar similarity_hash hflag => ?_⟩
  · obtain ⟨h1, h2, _⟩ := sort_spec fitness c h
    exact ⟨h1, h2, fun _ => h2⟩
  · by_cases hle : c.nodes.length ≤ t
    · unfold keep_best
      rw [if_pos hle]
      exact h
    · unfold keep_best
      rw [if_neg hle]
      intro _
      obtain ⟨_, hsorted, _⟩ := sort_spec fitness c h
      exact hsorted.sublist (List.take_sublist _ _)
  · intro habs
    have : (remove_similars fitness c is_similar similarity_hash).1.sorted
        = c.sorted := rfl
    rw [this, hflag] at habs
    cases habs

/-- Witness for the amended C2 theorem at concrete pools. -/
theorem pool_tracked_cache_invariant_witness :
    ((wpool4.add (.root 0)).sorted = false ∧
      BeamsearchCollection.Inv id (wpool4.add (.root 0))) ∧
    BeamsearchCollection.Inv id
      (BeamsearchCollection.remove_similars id wpool4 always_similar zero_hash).1 :=
  ⟨(pool_tracked_cache_invariant id).1 wpool4 (.root 0),
    (pool_tracked_cache_invariant id).2.2.2 wpool4 always_similar zero_hash rfl⟩

/-- C2, counterexample: `remove_similars` does not touch the `sorted` flag
while regrouping the nodes bucket by bucket, so on a flag-true pool whose
nodes fall into two buckets it leaves the flag set over an unsorted sequence
— the tracked-cache invariant is not preserved by every operation. -/
theorem remove_similars_can_break_invariant :
    BeamsearchCollection.Inv id c2pool ∧
    ¬ BeamsearchCollection.Inv id
      (BeamsearchCollection.remove_similars id c2pool is_never_similar c2hash).1 := by
  constructor
  · intro _
    decide
  · intro h
    have := h (by decide)
    revert this
    decide

end InvariantC2

/-! #### `remove_similars` machinery -/

section RemoveSimilarsLemmas

open BeamsearchCollection

variable {T : Type}

theorem outer_loop_length (is_similar : ParentTreeNode T → ParentTreeNode T → Bool)
    (g : List (ParentTreeNode T)) :
    ∀ (k : Nat) (mask : List Bool),
      (outer_loop is_similar g k mask).length = mask.length := by
  intro k
  induction k with
  | zero => intro mask; rfl
  | succ k ih =>
    intro mask
    show (outer_loop is_similar g k _).length = mask.length
    rw [ih]
    split
    · split
      · exact List.length_set mask k false
      · rfl
    · rfl

theorem outer_loop_spec (is_similar : ParentTreeNode T → ParentTreeNode T → Bool)
    (g : List (ParentTreeNode T)) :
    ∀ (k : Nat) (mask : List Bool),
      mask.length = g.length → k ≤ g.length →
      (∀ j, j < k → mask.getD j true = true) →
      ∀ i, (outer_loop is_similar g k mask).getD i true
        = if i < k
          then !((List.range i).any (fun j => similar_at is_similar g i j))
          else mask.getD i true := by
  intro k
  induction k with
  | zero =>
    intro mask _ _ _ i
    rw [if_neg (Nat.not_lt_zero i)]
    rfl
  | succ k ih =>
    intro mask hlen hk hj i
    have hklen : k < g.length := hk
    have hguard : mask.getD k true = true := hj k (Nat.lt_succ_self k)
    have hany_congr : ∀ (l : List Nat) (p q : Nat → Bool),
        (∀ a ∈ l, p a = q a) → l.any p = l.any q := by
      intro l p q hpq
      induction l with
      | nil => rfl
      | cons a t iht =>
        simp only [List.any_cons, hpq a (List.mem_cons_self a t),
          iht (fun b hb => hpq b (List.mem_cons_of_mem _ hb))]
    have hinner : inner_loop is_similar g mask k
        = (List.range k).any (fun j => similar_at is_similar g k j) := by
      unfold inner_loop
      rw [List.any_reverse]
      refine hany_congr _ _ _ (fun j hjmem => ?_)
      rw [hj j (Nat.lt_trans (List.mem_range.mp hjmem) (Nat.lt_succ_self k)),
        Bool.true_and]
    have hstep : outer_loop is_similar g (k + 1) mask
        = outer_loop is_similar g k
            (if (List.range k).any (fun j => similar_at is_similar g k j)
              then mask.set k false else mask) := by
      show outer_loop is_similar g k _ = _
      rw [hguard, hinner]
      simp only [if_true]
    rw [hstep]
    by_cases hA : (List.range k).any (fun j => similar_at is_similar g k j)
    · rw [if_pos hA]
      have hres := ih (mask.set k false) (by simp [hlen]) (Nat.le_of_lt hklen)
        (fun j hjk => by
          rw [List.getD_eq_getElem?_getD,
            List.getElem?_set_ne (Nat.ne_of_gt hjk),
            ← List.getD_eq_getElem?_getD]
          exact hj j (Nat.lt_trans hjk (Nat.lt_succ_self k))) i
      rw [hres]
      rcases Nat.lt_trichotomy i k with hik | rfl | hik
      · rw [if_pos hik, if_pos (Nat.lt_trans hik (Nat.lt_succ_self k))]
      · rw [if_neg (Nat.lt_irrefl i), if_pos (Nat.lt_succ_self i)]
        rw [List.getD_eq_getElem?_getD, List.getElem?_set_self (by omega)]
        rw [hA]
        rfl
      · rw [if_neg (by omega), if_neg (by omega)]
        rw [List.getD_eq_getElem?_getD, List.getElem?_set_ne (by omega),
          ← List.getD_eq_getElem?_getD]
    · rw [if_neg hA]
      have hres := ih mask hlen (Nat.le_of_lt hklen)
        (fun j hjk => hj j (Nat.lt_trans hjk (Nat.lt_succ_self k))) i
      rw [hres]
      rcases Nat.lt_trichotomy i k with hik | rfl | hik
      · rw [if_pos hik, if_pos (Nat.lt_trans hik (Nat.lt_succ_self k))]
      · rw [if_neg (Nat.lt_irrefl i), if_pos (Nat.lt_succ_self i), hguard]
        have hA' : (List.range i).any (fun j => similar_at is_similar g i j)
            = false := by
          cases h : (List.range i).any (fun j => similar_at is_similar g i j)
          · rfl
          · exact absurd h hA
        rw [hA']
        rfl
      · rw [if_neg (by omega), if_neg (by omega)]

theorem removal_loop_perm {α : Type} (mask : List Bool) :
    ∀ (i : Nat) (full rest : List α),
      i ≤ full.length → mask.length = full.length →
      List.Perm rest (mask_filter (full.drop i) (mask.drop i)) →
      List.Perm (removal_loop mask i (full.take i ++ rest))
        (mask_filter full mask) := by
  intro i
  induction i with
  | zero =>
    intro full rest _ _ hperm
    show List.Perm (full.take 0 ++ rest) _
    simpa using hperm
  | succ i ih =>
    intro full rest hle hlen hperm
    have hilt : i < full.length := hle
    have hmlt : i < mask.length := by omega
    have htake : full.take (i + 1) = full.take i ++ [full[i]] := by
      rw [List.take_succ, List.getElem?_eq_getElem hilt]
      rfl
    have hdropf : full.drop i = full[i] :: full.drop (i + 1) :=
      List.drop_eq_getElem_cons hilt
    have hdropm : mask.drop i = mask.getD i true :: mask.drop (i + 1) := by
      rw [List.drop_eq_getElem_cons hmlt]
      congr 1
      rw [List.getD_eq_getElem?_getD, List.getElem?_eq_getElem hmlt]
      rfl
    have hlist : full.take (i + 1) ++ rest = full.take i ++ (full[i] :: rest) := by
      rw [htake, List.append_assoc]
      rfl
    show List.Perm (removal_loop mask i _) _
    rw [hlist]
    by_cases hmi : mask.getD i true
    · rw [if_pos hmi]
      refine ih full (full[i] :: rest) (Nat.le_of_lt hilt) hlen ?_
      rw [hdropf, hdropm, hmi]
      show List.Perm _ (if true then _ else _)
      rw [if_pos rfl]
      exact hperm.cons _
    · rw [if_neg hmi]
      have hmifalse : mask.getD i true = false := by
        cases h : mask.getD i true
        · rfl
        · exact absurd h hmi
      have hfilter_eq : mask_filter (full.drop i) (mask.drop i)
          = mask_filter (full.drop (i + 1)) (mask.drop (i + 1)) := by
        rw [hdropf, hdropm, hmifalse]
        show (if false then _ else _) = _
        rw [if_neg (by simp)]
      cases rest with
      | nil =>
        have hswap : swap_remove (full.take i ++ [full[i]] ++ ([] : List α)) i
            = full.take i := by
          unfold swap_remove
          rw [List.append_nil, List.getLast?_append_of_ne_nil _ (by simp)]
          show ((full.take i ++ [full[i]]).dropLast).set i full[i] = _
          rw [List.dropLast_concat]
          exact List.set_eq_of_length_le (by rw [List.length_take]; omega)
        have : full.take i ++ [full[i]] ++ ([] : List α)
            = full.take i ++ (full[i] :: ([] : List α)) := by simp
        rw [← this, hswap]
        have hswap2 : full.take i = full.take i ++ ([] : List α) := by simp
        rw [hswap2]
        refine ih full [] (Nat.le_of_lt hilt) hlen ?_
        rw [hfilter_eq]
        exact hperm
      | cons r rs =>
        have hne : (r :: rs : List α) ≠ [] := by simp
        have hlast : (full.take i ++ (full[i] :: r :: rs)).getLast?
            = some ((r :: rs).getLast hne) := by
          rw [List.getLast?_append_of_ne_nil _ (by simp)]
          show (([full[i]] : List α) ++ (r :: rs)).getLast? = _
          rw [List.getLast?_append_of_ne_nil _ hne]
          exact List.getLast?_eq_getLast _ hne
        have hdroplast : (full.take i ++ (full[i] :: r :: rs)).dropLast
            = full.take i ++ (full[i] :: (r :: rs).dropLast) := by
          rw [List.append_cons, List.dropLast_append_of_ne_nil _ hne,
            ← List.append_cons]
        have hset : ((full.take i ++ (full[i] :: (r :: rs).dropLast)).set i
              ((r :: rs).getLast hne))
            = full.take i ++ ((r :: rs).getLast hne :: (r :: rs).dropLast) := by
          rw [List.set_append]
          rw [if_neg (by rw [List.length_take]; omega)]
          have : i - (full.take i).length = 0 := by rw [List.length_take]; omega
          rw [this]
          rfl
        have hswap : swap_remove (full.take i ++ (full[i] :: r :: rs)) i
            = full.take i ++ ((r :: rs).getLast hne :: (r :: rs).dropLast) := by
          unfold swap_remove
          rw [hlast, hdroplast]
          exact hset
        rw [hswap]
        refine ih full _ (Nat.le_of_lt hilt) hlen ?_
        rw [hfilter_eq]
        refine List.Perm.trans ?_ hperm
        have hsplit : (r :: rs : List α)
            = (r :: rs).dropLast ++ [(r :: rs).getLast hne] :=
          (List.dropLast_append_getLast hne).symm
        conv_rhs => rw [hsplit]
        exact (List.perm_append_singleton _ _).symm

end RemoveSimilarsLemmas

section RemoveSimilarsCharacterisation

open BeamsearchCollection

variable {T : Type}

theorem mask_filter_eq_scan_keep
    (is_similar : ParentTreeNode T → ParentTreeNode T → Bool) :
    ∀ (g : List (ParentTreeNode T)) (mask : List Bool)
      (earlier : List (ParentTreeNode T)),
      mask.length = g.length →
      (∀ (i : Nat) (x : ParentTreeNode T), g[i]? = some x →
        mask.getD i true
          = !((earlier ++ g.take i).any (fun e => is_similar x e))) →
      mask_filter g mask = scan_keep is_similar earlier g := by
  intro g
  induction g with
  | nil =>
    intro mask earlier _ _
    cases mask <;> rfl
  | cons x xs ih =>
    intro mask earlier hlen hmask
    cases mask with
    | nil => simp at hlen
    | cons b bs =>
      have hb : b = !(earlier.any (fun e => is_similar x e)) := by
        have h0 := hmask 0 x (by simp)
        simpa using h0
      have hrest : ∀ (i : Nat) (y : ParentTreeNode T), xs[i]? = some y →
          bs.getD i true
            = !(((earlier ++ [x]) ++ xs.take i).any (fun e => is_similar y e)) := by
        intro i y hy
        have h1 := hmask (i + 1) y (by simpa using hy)
        have h2 : ((x :: xs).take (i + 1)) = x :: xs.take i := rfl
        rw [h2] at h1
        rw [show (b :: bs).getD (i + 1) true = bs.getD i true from rfl] at h1
        rw [h1, List.append_cons]
      have hih := ih bs (earlier ++ [x]) (by simpa using hlen) hrest
      show (if b then x :: mask_filter xs bs else mask_filter xs bs) = _
      cases hany : earlier.any (fun e => is_similar x e) with
      | false =>
        rw [hany] at hb
        rw [hb]
        show x :: mask_filter xs bs = scan_keep is_similar earlier (x :: xs)
        unfold scan_keep
        rw [hany]
        show _ = x :: scan_keep is_similar (earlier ++ [x]) xs
        rw [hih]
      | true =>
        rw [hany] at hb
        rw [hb]
        show mask_filter xs bs = scan_keep is_similar earlier (x :: xs)
        unfold scan_keep
        rw [hany]
        show _ = scan_keep is_similar (earlier ++ [x]) xs
        rw [hih]

/-- The survivors of `remove_similars_for` are, as a multiset, the nodes of
the sorted group with no earlier (in sorted order) similar node. -/
theorem remove_similars_for_perm (fitness : T → Int)
    (is_similar : ParentTreeNode T → ParentTreeNode T → Bool)
    (group : List (ParentTreeNode T)) :
    List.Perm (remove_similars_for fitness is_similar group)
      (scan_keep is_similar [] (inner_sort fitness group)) := by
  unfold remove_similars_for
  have hreplen : (List.replicate (inner_sort fitness group).length true).length
      = (inner_sort fitness group).length := List.length_replicate _ _
  have hrepget : ∀ j : Nat,
      (List.replicate (inner_sort fitness group).length true).getD j true
        = true := by
    intro j
    rw [List.getD_eq_getElem?_getD]
    rcases Nat.lt_or_ge j (inner_sort fitness group).length with h | h
    · rw [List.getElem?_replicate, if_pos h]
      rfl
    · rw [List.getElem?_eq_none (by simpa using h)]
      rfl
  have hmasklen :
      (outer_loop is_similar (inner_sort fitness group)
        (inner_sort fitness group).length
        (List.replicate (inner_sort fitness group).length true)).length
      = (inner_sort fitness group).length := by
    rw [outer_loop_length, hreplen]
  have hmaskval := outer_loop_spec is_similar (inner_sort fitness group)
    (inner_sort fitness group).length
    (List.replicate (inner_sort fitness group).length true)
    hreplen (Nat.le_refl _) (fun j _ => hrepget j)
  have hfinal : ∀ (i : Nat) (x : ParentTreeNode T),
      (inner_sort fitness group)[i]? = some x →
      (outer_loop is_similar (inner_sort fitness group)
        (inner_sort fitness group).length
        (List.replicate (inner_sort fitness group).length true)).getD i true
      = !((([] : List (ParentTreeNode T))
            ++ (inner_sort fitness group).take i).any
          (fun e => is_similar x e)) := by
    intro i x hx
    have hilt : i < (inner_sort fitness group).length := by
      by_contra hge
      rw [List.getElem?_eq_none (by omega)] at hx
      cases hx
    rw [hmaskval i, if_pos hilt, List.nil_append]
    congr 1
    have hbool : ∀ (b c : Bool), (b = true ↔ c = true) → b = c := by decide
    refine hbool _ _ ⟨fun h => ?_, fun h => ?_⟩
    · obtain ⟨j, hjmem, hj⟩ := List.any_eq_true.mp h
      have hji : j < i := List.mem_range.mp hjmem
      unfold similar_at at hj
      rw [hx] at hj
      cases hy : (inner_sort fitness group)[j]? with
      | none => rw [hy] at hj; cases hj
      | some y =>
        rw [hy] at hj
        refine List.any_eq_true.mpr ⟨y, ?_, hj⟩
        have : ((inner_sort fitness group).take i)[j]? = some y := by
          rw [List.getElem?_take]
          rw [if_pos hji]
          exact hy
        exact List.getElem?_mem this
    · obtain ⟨e, hemem, he⟩ := List.any_eq_true.mp h
      obtain ⟨j, hj⟩ := List.mem_iff_getElem?.mp hemem
      have hji : j < i := by
        have : j < ((inner_sort fitness group).take i).length := by
          by_contra hge
          rw [List.getElem?_eq_none (by omega)] at hj
          cases hj
        rw [List.length_take] at this
        omega
      refine List.any_eq_true.mpr ⟨j, List.mem_range.mpr hji, ?_⟩
      unfold similar_at
      rw [hx]
      rw [List.getElem?_take, if_pos hji] at hj
      rw [hj]
      exact he
  have hmf := mask_filter_eq_scan_keep is_similar (inner_sort fitness group) _
    ([] : List (ParentTreeNode T)) hmasklen hfinal
  have hperm := removal_loop_perm
    (outer_loop is_similar (inner_sort fitness group)
      (inner_sort fitness group).length
      (List.replicate (inner_sort fitness group).length true))
    (inner_sort fitness group).length (inner_sort fitness group) []
    (Nat.le_refl _) hmasklen
    (by
      rw [List.drop_length]
      show List.Perm [] (mask_filter [] _)
      rw [show mask_filter ([] : List (ParentTreeNode T))
        ((outer_loop is_similar (inner_sort fitness group)
          (inner_sort fitness group).length
          (List.replicate (inner_sort fitness group).length true)).drop
            (inner_sort fitness group).length) = [] from rfl]
      )
  rw [List.take_length, List.append_nil] at hperm
  rw [← hmf]
  exact hperm

/-- If some earlier element is in the similarity class `S`, no `S`-element of
the remaining list survives the scan. -/
theorem scan_keep_no_S (is_similar : ParentTreeNode T → ParentTreeNode T → Bool)
    (S : ParentTreeNode T → Bool)
    (h1 : ∀ a b, S a = true → S b = true → is_similar a b = true) :
    ∀ (g earlier : List (ParentTreeNode T)),
      (∃ e ∈ earlier, S e = true) →
      (scan_keep is_similar earlier g).countP (fun w => S w) = 0 := by
  intro g
  induction g with
  | nil => intro earlier _; rfl
  | cons x rest ih =>
    intro earlier he
    obtain ⟨e, hemem, hSe⟩ := he
    unfold scan_keep
    cases hSx : S x with
    | true =>
      have hany : earlier.any (fun e => is_similar x e) = true :=
        List.any_eq_true.mpr ⟨e, hemem, h1 x e hSx hSe⟩
      rw [hany, if_pos rfl]
      exact ih (earlier ++ [x]) ⟨e, List.mem_append_left _ hemem, hSe⟩
    | false =>
      have hihx := ih (earlier ++ [x]) ⟨e, List.mem_append_left _ hemem, hSe⟩
      cases hany : earlier.any (fun e => is_similar x e) with
      | true =>
        rw [if_pos rfl]
        exact hihx
      | false =>
        rw [if_neg Bool.false_ne_true]
        simpa [List.countP_cons, hSx] using hihx

/-- On a sorted list containing some `S`-element, with `S` a similarity
clique closed under similarity, the scan keeps exactly one `S`-element and it
has minimal fitness within `S`. -/
theorem scan_keep_clique (fitness : T → Int)
    (is_similar : ParentTreeNode T → ParentTreeNode T → Bool)
    (S : ParentTreeNode T → Bool)
    (h1 : ∀ a b, S a = true → S b = true → is_similar a b = true)
    (h2 : ∀ a b, S a = true → S b = false →
      is_similar a b = false ∧ is_similar b a = false) :
    ∀ (g earlier : List (ParentTreeNode T)),
      List.Sorted (fit_le fitness) g →
      (∀ e ∈ earlier, S e = false) →
      (∃ x ∈ g, S x = true) →
      ∃ z, S z = true ∧ z ∈ scan_keep is_similar earlier g ∧
        (∀ y ∈ g, S y = true → fitness z.data ≤ fitness y.data) ∧
        (scan_keep is_similar earlier g).countP (fun w => S w) = 1 := by
  intro g
  induction g with
  | nil =>
    intro earlier _ _ hex
    obtain ⟨x, hx, _⟩ := hex
    cases hx
  | cons x rest ih =>
    intro earlier hsorted hearlier hex
    have hsorted_head := (List.pairwise_cons.mp hsorted).1
    have hsorted_rest := (List.pairwise_cons.mp hsorted).2
    cases hSx : S x with
    | true =>
      have hany : earlier.any (fun e => is_similar x e) = false := by
        cases h : earlier.any (fun e => is_similar x e) with
        | false => rfl
        | true =>
          obtain ⟨e, hemem, he⟩ := List.any_eq_true.mp h
          rw [(h2 x e hSx (hearlier e hemem)).1] at he
          cases he
      refine ⟨x, hSx, ?_, ?_, ?_⟩
      · unfold scan_keep
        rw [hany, if_neg Bool.false_ne_true]
        exact List.mem_cons_self _ _
      · intro y hy _
        rcases List.mem_cons.mp hy with rfl | hy
        · exact le_refl _
        · exact hsorted_head y hy
      · unfold scan_keep
        rw [hany, if_neg Bool.false_ne_true]
        have h0 := scan_keep_no_S is_similar S h1 rest (earlier ++ [x])
          ⟨x, List.mem_append_right _ (List.mem_cons_self _ _), hSx⟩
        simp [List.countP_cons, hSx, h0]
    | false =>
      have hex' : ∃ y ∈ rest, S y = true := by
        obtain ⟨y, hymem, hSy⟩ := hex
        rcases List.mem_cons.mp hymem with rfl | hymem
        · rw [hSx] at hSy; cases hSy
        · exact ⟨y, hymem, hSy⟩
      have hearlier' : ∀ e ∈ earlier ++ [x], S e = false := by
        intro e he
        rcases List.mem_append.mp he with he | he
        · exact hearlier e he
        · rcases List.mem_cons.mp he with rfl | he
          · exact hSx
          · cases he
      obtain ⟨z, hSz, hzmem, hzmin, hzcount⟩ :=
        ih (earlier ++ [x]) hsorted_rest hearlier' hex'
      refine ⟨z, hSz, ?_, ?_, ?_⟩
      · unfold scan_keep
        cases hany : earlier.any (fun e => is_similar x e) with
        | true =>
          rw [if_pos rfl]
          exact hzmem
        | false =>
          rw [if_neg Bool.false_ne_true]
          exact List.mem_cons_of_mem _ hzmem
      · intro y hy hSy
        rcases List.mem_cons.mp hy with rfl | hy
        · rw [hSx] at hSy; cases hSy
        · exact hzmin y hy hSy
      · unfold scan_keep
        cases hany : earlier.any (fun e => is_similar x e) with
        | true =>
          rw [if_pos rfl]
          exact hzcount
        | false =>
          rw [if_neg Bool.false_ne_true]
          simpa [List.countP_cons, hSx] using hzcount

end RemoveSimilarsCharacterisation

/-! #### C3: `remove_similars` deduplication -/

section DedupC3

open BeamsearchCollection

variable {T : Type}

theorem scan_keep_length_le
    (is_similar : ParentTreeNode T → ParentTreeNode T → Bool) :
    ∀ (g earlier : List (ParentTreeNode T)),
      (scan_keep is_similar earlier g).length ≤ g.length := by
  intro g
  induction g with
  | nil => intro earlier; exact Nat.le_refl _
  | cons x rest ih =>
    intro earlier
    unfold scan_keep
    cases earlier.any (fun e => is_similar x e) with
    | true =>
      rw [if_pos rfl]
      exact Nat.le_succ_of_le (ih (earlier ++ [x]))
    | false =>
      rw [if_neg Bool.false_ne_true]
      exact Nat.succ_le_succ (ih (earlier ++ [x]))

theorem insert_group_sum (key : Nat) (node : ParentTreeNode T) :
    ∀ acc : List (Nat × List (ParentTreeNode T)),
      ((insert_group key node acc).map (fun kg => kg.2.length)).sum
        = ((acc.map (fun kg => kg.2.length)).sum) + 1 := by
  intro acc
  induction acc with
  | nil => simp [insert_group]
  | cons kg rest ih =>
    unfold insert_group
    by_cases hk : kg.1 = key
    · rw [if_pos hk]
      simp
      omega
    · rw [if_neg hk]
      simp only [List.map_cons, List.sum_cons, ih]
      omega

theorem create_groups_sum (similarity_hash : ParentTreeNode T → Nat)
    (nodes : List (ParentTreeNode T)) :
    ((create_similarity_groups_from similarity_hash nodes).map
      (fun kg => kg.2.length)).sum = nodes.length := by
  suffices h : ∀ (l : List (ParentTreeNode T))
      (acc : List (Nat × List (ParentTreeNode T))),
      ((l.foldl (fun groups node => insert_group (similarity_hash node) node groups)
        acc).map (fun kg => kg.2.length)).sum
        = ((acc.map (fun kg => kg.2.length)).sum) + l.length by
    have := h nodes []
    simpa [create_similarity_groups_from] using this
  intro l
  induction l with
  | nil => intro acc; simp
  | cons n rest ih =>
    intro acc
    rw [List.foldl_cons, ih, insert_group_sum]
    simp only [List.length_cons]
    omega

/-- C3: across every pool, `remove_similars` returns exactly the number of
nodes removed (removed + surviving = original size); within one bucket it
never discards the unique strict-minimum-fitness node; and for any similarity
class `S` that is a clique under `is_similar` and closed under it (no
similarity across its boundary), exactly one `S`-member survives the bucket
and it has minimal fitness among the `S`-members. -/
theorem remove_similars_dedup_spec (fitness : T → Int)
    (is_similar : ParentTreeNode T → ParentTreeNode T → Bool)
    (similarity_hash : ParentTreeNode T → Nat) :
    (∀ c : BeamsearchCollection T,
      (remove_similars fitness c is_similar similarity_hash).2
        + (remove_similars fitness c is_similar similarity_hash).1.nodes.length
      = c.nodes.length) ∧
    (∀ (group : List (ParentTreeNode T)) (x : ParentTreeNode T), x ∈ group →
      (∀ y ∈ group, y ≠ x → fitness x.data < fitness y.data) →
      x ∈ remove_similars_for fitness is_similar group) ∧
    (∀ (group : List (ParentTreeNode T)) (S : ParentTreeNode T → Bool),
      (∀ a b, S a = true → S b = true → is_similar a b = true) →
      (∀ a b, S a = true → S b = false →
        is_similar a b = false ∧ is_similar b a = false) →
      (∃ x ∈ group, S x = true) →
      ∃ z, S z = true ∧ z ∈ remove_similars_for fitness is_similar group ∧
        (∀ y ∈ group, S y = true → fitness z.data ≤ fitness y.data) ∧
        (remove_similars_for fitness is_similar group).countP (fun w => S w)
          = 1) := by
  refine ⟨fun c => ?_, fun group x hx hmin => ?_, fun group S h1 h2 hex => ?_⟩
  · show c.nodes.length
        - ((create_similarity_groups_from similarity_hash c.nodes).map
            (fun kg => remove_similars_for fitness is_similar kg.2)).flatten.length
        + ((create_similarity_groups_from similarity_hash c.nodes).map
            (fun kg => remove_similars_for fitness is_similar kg.2)).flatten.length
      = c.nodes.length
    refine Nat.sub_add_cancel ?_
    rw [List.length_flatten, List.map_map]
    calc (((create_similarity_groups_from similarity_hash c.nodes).map
            (List.length ∘ fun kg => remove_similars_for fitness is_similar kg.2)).sum)
        ≤ ((create_similarity_groups_from similarity_hash c.nodes).map
            (fun kg => kg.2.length)).sum := by
          refine List.sum_le_sum (fun kg _ => ?_)
          show (remove_similars_for fitness is_similar kg.2).length ≤ kg.2.length
          rw [(remove_similars_for_perm fitness is_similar kg.2).length_eq]
          calc (scan_keep is_similar [] (inner_sort fitness kg.2)).length
              ≤ (inner_sort fitness kg.2).length :=
                scan_keep_length_le is_similar _ _
            _ = kg.2.length := List.length_insertionSort _ _
      _ = c.nodes.length := create_groups_sum similarity_hash c.nodes
  · have hmem : x ∈ inner_sort fitness group :=
      (List.mem_insertionSort _).mpr hx
    obtain ⟨rest, hrest⟩ : ∃ rest, inner_sort fitness group = x :: rest := by
      cases hcase : inner_sort fitness group with
      | nil => rw [hcase] at hmem; cases hmem
      | cons a t =>
        by_cases hax : a = x
        · exact ⟨t, by rw [hax]⟩
        · exfalso
          have hamem : a ∈ group :=
            (List.mem_insertionSort _).mp (hcase ▸ List.mem_cons_self a t)
          have hxlt : fitness x.data < fitness a.data := hmin a hamem hax
          have hsorted : List.Sorted (fit_le fitness) (inner_sort fitness group) :=
            List.sorted_insertionSort _ _
          rw [hcase] at hsorted
          have hxin : x ∈ t := by
            rw [hcase] at hmem
            rcases List.mem_cons.mp hmem with rfl | hxt
            · exact absurd rfl hax
            · exact hxt
          have hle := (List.pairwise_cons.mp hsorted).1 x hxin
          exact absurd hle (not_le.mpr hxlt)
    refine (remove_similars_for_perm fitness is_similar group).mem_iff.mpr ?_
    rw [hrest]
    unfold scan_keep
    rw [show (List.any [] fun e => is_similar x e) = false from rfl,
      if_neg Bool.false_ne_true]
    exact List.mem_cons_self _ _
  · have hperm := remove_similars_for_perm fitness is_similar group
    obtain ⟨z, hSz, hzmem, hzmin, hcount⟩ :=
      scan_keep_clique fitness is_similar S h1 h2 (inner_sort fitness group) []
        (List.sorted_insertionSort _ _) (fun e he => absurd he (List.not_mem_nil e))
        (by
          obtain ⟨y, hy, hSy⟩ := hex
          exact ⟨y, (List.mem_insertionSort _).mpr hy, hSy⟩)
    refine ⟨z, hSz, hperm.mem_iff.mpr hzmem, fun y hy hSy =>
      hzmin y ((List.mem_insertionSort _).mpr hy) hSy, ?_⟩
    rw [hperm.countP_eq]
    exact hcount

/-- Witness for C3 at a one-bucket pool `[2, 1]` where all nodes are
similar: one node is removed, the fitness-1 node survives, the universal
class keeps exactly one member. -/
theorem remove_similars_dedup_spec_witness :
    ((BeamsearchCollection.remove_similars id wpool3 always_similar zero_hash).2
        + (BeamsearchCollection.remove_similars id wpool3
            always_similar zero_hash).1.nodes.length
      = wpool3.nodes.length) ∧
    ParentTreeNode.root (1 : Int) ∈
      BeamsearchCollection.remove_similars_for id always_similar wpool3.nodes ∧
    (∃ z, (fun _ : ParentTreeNode Int => true) z = true ∧
      z ∈ BeamsearchCollection.remove_similars_for id always_similar wpool3.nodes ∧
      (∀ y ∈ wpool3.nodes, (fun _ : ParentTreeNode Int => true) y = true →
        id z.data ≤ id y.data) ∧
      (BeamsearchCollection.remove_similars_for id always_similar
        wpool3.nodes).countP (fun w => (fun _ : ParentTreeNode Int => true) w)
        = 1) :=
  ⟨(remove_similars_dedup_spec id always_similar zero_hash).1 wpool3,
   (remove_similars_dedup_spec id always_similar zero_hash).2.1 wpool3.nodes
     (ParentTreeNode.root 1) (by decide) (by decide),
   (remove_similars_dedup_spec id always_similar zero_hash).2.2 wpool3.nodes
     (fun _ => true) (fun _ _ _ _ => rfl)
     (fun _ _ _ hb => Bool.noConfusion hb)
     ⟨ParentTreeNode.root 2, by decide, rfl⟩⟩

end DedupC3

/-! #### Solver lemmas and claims C1, C5, C6, C8 -/

section SolverLemmas

open BeamsearchCollection BeamsearchSolver

variable {T : Type}

theorem solve_loop_succ (fitness : T → Int) (fuel : Nat)
    (s : BeamsearchSolver T) (a : Nat) :
    solve_loop fitness (fuel + 1) s a
      = (if (expand s).2 = 0
          then some (create_result fitness (dedup_step fitness (expand s).1).1 a)
          else solve_loop fitness fuel
            { (dedup_step fitness (expand s).1).1 with
              coll := (keep_best fitness (dedup_step fitness (expand s).1).1.coll
                (dedup_step fitness (expand s).1).1.params.beam_width).1 }
            (a + (expand s).2)) := rfl

theorem expand_snd_zero (s : BeamsearchSolver T)
    (h : (expand s).2 = 0) : expand s = (s, 0) := by
  simp only [BeamsearchSolver.expand] at h ⊢
  split at h
  · next hc =>
      rw [if_pos hc]
  · next hc =>
      exact absurd h hc

theorem expand_of_no_children (s : BeamsearchSolver T)
    (h : s.expander = fun _ => []) : expand s = (s, 0) := by
  refine expand_snd_zero s ?_
  simp only [BeamsearchSolver.expand, h]
  simp

theorem create_result_nr (fitness : T → Int) (s : BeamsearchSolver T) (n : Nat) :
    (create_result fitness s n).nr_expansions = n := by
  unfold create_result
  split
  · split <;> rfl
  · rfl

theorem create_result_best_eq (fitness : T → Int) (s : BeamsearchSolver T)
    (n : Nat) :
    (create_result fitness s n).best
      = match BeamsearchCollection.get_best fitness s.coll with
        | some b => if s.is_valid_solution b then some b else none
        | none => none := by
  unfold create_result
  cases hgb : BeamsearchCollection.get_best fitness s.coll with
  | some b =>
    show (if s.is_valid_solution b
        then ({ best := some b, nr_expansions := n } : SolverResult T)
        else { best := none, nr_expansions := n }).best
      = if s.is_valid_solution b then some b else none
    by_cases hv : s.is_valid_solution b
    · rw [if_pos hv, if_pos hv]
    · rw [if_neg hv, if_neg hv]
  | none => rfl

theorem dedup_step_of_prune_false (fitness : T → Int) (s : BeamsearchSolver T)
    (h : s.params.prune_similars = false) : dedup_step fitness s = (s, 0) := by
  unfold dedup_step
  rw [h]
  rfl

theorem expand_fst_is_valid (s : BeamsearchSolver T) :
    (expand s).1.is_valid_solution = s.is_valid_solution := by
  simp only [BeamsearchSolver.expand]
  split <;> rfl

theorem dedup_step_fst_is_valid (fitness : T → Int) (s : BeamsearchSolver T) :
    (dedup_step fitness s).1.is_valid_solution = s.is_valid_solution := by
  unfold dedup_step
  split <;> rfl

/-- C1 (supporting theorem for the intended, type-correct interface): the
constructor stores the bucket-key function alongside the other callbacks, and
with `prune_similars` enabled the dedup step of a generation invokes the
pool's `remove_similars` with both the `is_similar` predicate and that
bucket-key function. -/
theorem solver_stores_and_passes_bucket_key (fitness : T → Int)
    (start_nodes : List T) (expander : ParentTreeNode T → List T)
    (is_similar : ParentTreeNode T → ParentTreeNode T → Bool)
    (similarity_hash : ParentTreeNode T → Nat)
    (is_valid_solution : ParentTreeNode T → Bool) (params : Params)
    (coll : BeamsearchCollection T) (w : Nat) :
    (BeamsearchSolver.new start_nodes expander is_similar similarity_hash
        is_valid_solution params).similarity_hash = similarity_hash ∧
    dedup_step fitness
        ⟨coll, expander, is_similar, similarity_hash, is_valid_solution,
          ⟨w, true⟩⟩
      = (⟨(BeamsearchCollection.remove_similars fitness coll is_similar
              similarity_hash).1,
          expander, is_similar, similarity_hash, is_valid_solution, ⟨w, true⟩⟩,
        (BeamsearchCollection.remove_similars fitness coll is_similar
          similarity_hash).2) :=
  ⟨rfl, rfl⟩

/-- C5, amended: a generation whose expansion produces zero children keeps
the previous frontier — run through the dedup step when `prune_similars` is
enabled — as the final frontier; in particular, an expander that always
returns the empty list makes `solve()` terminate at generation zero (for
every fuel bound) with `total_expansions = 0` and, when pruning is disabled,
`best` equal to `get_best()` of the initial pool filtered through
`is_valid`. -/
theorem solve_zero_expansion (fitness : T → Int) (s : BeamsearchSolver T) :
    ((expand s).2 = 0 →
      ∀ (fuel a : Nat),
        solve_loop fitness (fuel + 1) s a
          = some (create_result fitness (dedup_step fitness s).1 a)) ∧
    (s.expander = (fun _ => []) →
      ∀ fuel : Nat,
        solve fitness s (fuel + 1)
            = some (create_result fitness (dedup_step fitness s).1 0) ∧
        (create_result fitness (dedup_step fitness s).1 0).nr_expansions = 0 ∧
        (s.params.prune_similars = false →
          (create_result fitness (dedup_step fitness s).1 0).best
            = match BeamsearchCollection.get_best fitness s.coll with
              | some b => if s.is_valid_solution b then some b else none
              | none => none)) := by
  have hmain : (expand s).2 = 0 →
      ∀ (fuel a : Nat),
        solve_loop fitness (fuel + 1) s a
          = some (create_result fitness (dedup_step fitness s).1 a) := by
    intro h0 fuel a
    rw [solve_loop_succ, expand_snd_zero s h0]
    rfl
  refine ⟨hmain, fun hexp fuel => ?_⟩
  have h0 : (expand s).2 = 0 := by rw [expand_of_no_children s hexp]
  refine ⟨hmain h0 fuel 0, create_result_nr _ _ _, fun hprune => ?_⟩
  rw [dedup_step_of_prune_false fitness s hprune]
  exact create_result_best_eq fitness s 0

/-- C5, counterexample: with `prune_similars` enabled, a generation whose
expansion produces zero children does NOT retain the previous frontier as
the final frontier: `remove_similars` runs on the restored frontier before
the `nr_expanded == 0` check (beamsearch_solver.rs:76-90), so acceptance
evaluates a deduplicated, strictly smaller pool.  Here the two similar roots
10 and 20 share the one bucket (so this is independent of `HashMap`
iteration order): the previous frontier holds both, the frontier `solve`
hands to acceptance holds only node 10. -/
theorem solve_zero_expansion_prune_shrinks_frontier :
    c5solver.expander = (fun _ => []) ∧
    (BeamsearchSolver.expand c5solver).2 = 0 ∧
    BeamsearchSolver.solve id c5solver 5
      = some (create_result id (dedup_step id c5solver).1 0) ∧
    c5solver.coll.nodes.map ParentTreeNode.data = [10, 20] ∧
    (dedup_step id c5solver).1.coll.nodes.map ParentTreeNode.data = [10] := by
  exact ⟨rfl, by decide, by decide, by decide, by decide⟩

/-- Witness for the amended C5 theorem at a concrete no-children solver with
pruning disabled. -/
theorem solve_zero_expansion_witness :
    (BeamsearchSolver.solve id w5solver 1
        = some (create_result id (dedup_step id w5solver).1 0)) ∧
    (create_result id (dedup_step id w5solver).1 0).nr_expansions = 0 ∧
    (w5solver.params.prune_similars = false →
      (create_result id (dedup_step id w5solver).1 0).best
        = match BeamsearchCollection.get_best id w5solver.coll with
          | some b => if w5solver.is_valid_solution b then some b else none
          | none => none) :=
  (solve_zero_expansion id w5solver).2 rfl 0

/-- C6: `create_result` (acceptance) returns the accumulated expansion
count; `best` is absent exactly when the final frontier's `get_best` is
absent or the best node fails `is_valid_solution`, and otherwise is that best
node; and a validator that always returns false makes every completed
`solve` run return no best, as a normal optional-empty result. -/
theorem create_result_acceptance (fitness : T → Int) :
    (∀ (s : BeamsearchSolver T) (n : Nat),
      (create_result fitness s n).nr_expansions = n) ∧
    (∀ (s : BeamsearchSolver T) (n : Nat),
      (create_result fitness s n).best = none ↔
        (BeamsearchCollection.get_best fitness s.coll = none ∨
          ∃ b, BeamsearchCollection.get_best fitness s.coll = some b ∧
            s.is_valid_solution b = false)) ∧
    (∀ (s : BeamsearchSolver T) (n : Nat) (b : ParentTreeNode T),
      BeamsearchCollection.get_best fitness s.coll = some b →
      s.is_valid_solution b = true →
      (create_result fitness s n).best = some b) ∧
    (∀ s : BeamsearchSolver T,
      s.is_valid_solution = (fun _ => false) →
      ∀ (fuel a : Nat) (r : SolverResult T),
        solve_loop fitness fuel s a = some r → r.best = none) := by
  refine ⟨create_result_nr fitness, fun s n => ?_, fun s n b hgb hv => ?_,
    fun s hval fuel => ?_⟩
  · rw [create_result_best_eq]
    cases hgb : BeamsearchCollection.get_best fitness s.coll with
    | some b =>
      by_cases hv : s.is_valid_solution b
      · simp [hv]
      · simp [hv]
    | none => simp
  · rw [create_result_best_eq, hgb]
    show (if s.is_valid_solution b = true then some b else none) = some b
    rw [if_pos hv]
  · induction fuel generalizing s with
    | zero => intro a r hr; cases hr
    | succ fuel ih =>
      intro a r hr
      rw [solve_loop_succ] at hr
      by_cases h0 : (expand s).2 = 0
      · rw [if_pos h0] at hr
        injection hr with hr
        rw [← hr, create_result_best_eq]
        have hvs : (dedup_step fitness (expand s).1).1.is_valid_solution
            = (fun _ => false) := by
          rw [dedup_step_fst_is_valid, expand_fst_is_valid, hval]
        cases hgb : BeamsearchCollection.get_best fitness
            (dedup_step fitness (expand s).1).1.coll with
        | some b =>
          rw [hvs]
          rfl
        | none => rfl
      · rw [if_neg h0] at hr
        refine ih _ ?_ _ _ hr
        rw [dedup_step_fst_is_valid, expand_fst_is_valid, hval]

/-- Witness for C6: the best of a valid pool is returned, and a solver whose
validator rejects everything completes with no best. -/
theorem create_result_acceptance_witness :
    (create_result id w5solver 7).best = some (ParentTreeNode.root 1) ∧
    ({ best := none, nr_expansions := 0 } : SolverResult Int).best = none :=
  ⟨(create_result_acceptance id).2.2.1 w5solver 7 (ParentTreeNode.root 1)
      (by decide) (by decide),
    (create_result_acceptance id).2.2.2 w6solver rfl 1 0
      { best := none, nr_expansions := 0 } (by decide)⟩

set_option maxRecDepth 100000 in
set_option maxHeartbeats 1000000 in
/-- C8: one root at fitness 0 / level 0, a binary expander up to level 10,
beam width 4, deduplication without effect (`is_never_similar`, with pruning
either enabled as in the regression test or disabled as in the spec's
phrasing): `solve` finishes with `total_expansions = 2 + 4 + 8*8 = 70`. -/
theorem solve_binary_tree_expansion_count :
    (BeamsearchSolver.solve fit_fst c8solver_prune 12).map
        SolverResult.nr_expansions = some 70 ∧
    (BeamsearchSolver.solve fit_fst c8solver_noprune 12).map
        SolverResult.nr_expansions = some 70 :=
  ⟨by decide, by decide⟩

end SolverLemmas

end RsTsptw
